import Mathlib

/-!
Verification development for a retrieval-augmented question-answering
pipeline over a restaurant-menu catalog (source: `rag.py`).

The pipeline is shallowly embedded: pure Python functions become Lean
functions over `String` / `List Char`; the mutable conversation object
becomes explicit state passing; Python exceptions become `Except`.
External capability providers (the Unicode NFKD normalizer from
`unicodedata`, the sentence-embedding model, the text generator, and the
FAISS nearest-neighbor search structure) are not part of the repository:
they are modelled as parameters, or — for FAISS search — as an executable
model following the documented search contract.
-/

namespace RAG

/-! Step 2: text cleaner (`clean`, rag.py lines 34-43) -/

/-- Python whitespace class `\s` restricted to ASCII:
space, tab, newline, carriage return, vertical tab, form feed. -/
def pyIsSpace (c : Char) : Bool :=
  c == ' ' || c == '\t' || c == '\n' || c == '\r' || c == '\x0b' || c == '\x0c'

/-- Python word-character class `\w` on ASCII text: letters, digits, underscore. -/
def isWordChar (c : Char) : Bool :=
  c.isAlphanum || c == '_'

/-- Python `text.encode("ascii", "ignore").decode()`: drop every non-ASCII character. -/
def dropNonAscii (l : List Char) : List Char :=
  l.filter (fun c => c.toNat < 128)

/-- Python `text.lower()` character-wise (the text is ASCII-only at this point). -/
def lowerL (l : List Char) : List Char :=
  l.map Char.toLower

/-- Regex substitution `PUNCT_RE.sub(" ", text)` with `PUNCT_RE = [^\w\s]`: every character that
is neither a word character nor whitespace becomes a single space. -/
def punctSub (l : List Char) : List Char :=
  l.map (fun c => if isWordChar c || pyIsSpace c then c else ' ')

/-- First half of `re.sub(r"\s+", " ", text)`: map each whitespace character
to a plain space (runs are collapsed by `collapseSpaces` next). -/
def spaceNorm (l : List Char) : List Char :=
  l.map (fun c => if pyIsSpace c then ' ' else c)

/-- Second half of `re.sub(r"\s+", " ", text)`: collapse each run of spaces
to a single space. -/
def collapseSpaces : List Char → List Char
  | [] => []
  | [c] => [c]
  | c :: d :: rest =>
    if c = ' ' ∧ d = ' ' then collapseSpaces (d :: rest)
    else c :: collapseSpaces (d :: rest)

/-- Python `.strip()`: remove leading and trailing whitespace. -/
def stripL (l : List Char) : List Char :=
  ((l.dropWhile pyIsSpace).reverse.dropWhile pyIsSpace).reverse

/-- The cleaning pipeline of `clean` on a non-empty string, as a character
list: NFKD-normalize (external, passed in as `nfkd`), drop non-ASCII,
lowercase, replace punctuation by spaces, collapse whitespace runs, strip. -/
def cleanL (nfkd : List Char → List Char) (l : List Char) : List Char :=
  stripL (collapseSpaces (spaceNorm (punctSub (lowerL (dropNonAscii (nfkd l))))))

/-- The function `clean(text)` (rag.py lines 36-43). `unicodedata.normalize("NFKD", ·)` is
an external library call, abstracted as the parameter `nfkd`. -/
def clean (nfkd : List Char → List Char) (s : String) : String :=
  if s = "" then "" else String.mk (cleanL nfkd s.data)

/-- Applying `clean` to an optional input: Python's `if not text: return ""` maps
`None` (and the empty string) to the empty string. -/
def cleanOpt (nfkd : List Char → List Char) : Option String → String
  | none => ""
  | some s => clean nfkd s

/-! Step 8: minimal history (`Conversation`, rag.py lines 115-129) -/

/-- Constant `HISTORY_MAX = 3` (rag.py line 30). -/
def HISTORY_MAX : Nat := 3

/-- The `Conversation` class: a capacity bound `max` and the list `memory`
of (user, assistant) turns, oldest first. -/
structure Conversation where
  max : Nat
  memory : List (String × String)
deriving DecidableEq

/-- Method `Conversation.add` (rag.py lines 120-123): append the turn, then pop the
oldest turn once if the length now exceeds the capacity. -/
def Conversation.add (c : Conversation) (user assistant : String) : Conversation :=
  let mem := c.memory ++ [(user, assistant)]
  if mem.length > c.max then { c with memory := mem.drop 1 }
  else { c with memory := mem }

/-- Method `Conversation.format_history` (rag.py lines 125-129): empty string when
there are no turns, otherwise newline-joined "User/Assistant" blocks with a
trailing newline. -/
def Conversation.format_history (c : Conversation) : String :=
  if c.memory = [] then ""
  else "\n".intercalate
      (c.memory.map (fun t => "User: " ++ t.1 ++ "\nAssistant: " ++ t.2)) ++ "\n"

/-- Run a sequence of `add` calls from an empty conversation of capacity `n`
(the setting of claim C5). -/
def runAdds (n : Nat) (adds : List (String × String)) : Conversation :=
  adds.foldl (fun c t => c.add t.1 t.2) ⟨n, []⟩

/-! Step 9: prompt construction (rag.py lines 133-147) -/

/-- The fixed system instruction `SYSTEM` (rag.py lines 133-136). -/
def SYSTEM : String :=
  "You answer questions about restaurant menus using ONLY the CONTEXT. " ++
  "If the answer cannot be found, say you do not know."

/-- The function `make_prompt` (rag.py lines 138-147): system instruction, history,
labeled context block, question/answer cue. -/
def make_prompt (query : String) (ctx_chunks : List String) (history : String) : String :=
  SYSTEM ++ "\n\n" ++ history ++ "CONTEXT:\n" ++ "\n".intercalate ctx_chunks ++
  "\n\nQuestion: " ++ query ++ "\nAnswer:"

/-! Step 10: decode helper (`dedupe_tokens`, rag.py lines 151-157) -/

/-- Python `str.split()`: split on whitespace runs, discarding empty pieces. -/
def pySplit (s : String) : List String :=
  ((s.data.splitOnP pyIsSpace).map (fun cs => String.mk cs)).filter (fun t => t ≠ "")

/-- The loop of `dedupe_tokens` (rag.py lines 154-156): `out` is the kept
tokens so far; a token is appended only if it differs from the last kept
token `out[-1]`. -/
def dedupeGo (out : List String) : List String → List String
  | [] => out
  | tok :: toks =>
    if out.getLast? = some tok then dedupeGo out toks
    else dedupeGo (out ++ [tok]) toks

/-- The function `dedupe_tokens` (rag.py lines 151-157): split on whitespace, collapse
adjacent equal tokens, rejoin with single spaces. -/
def dedupe_tokens (text : String) : String :=
  " ".intercalate
    (match pySplit text with
     | [] => []
     | t :: rest => dedupeGo [t] rest)

/-! Errors and external providers -/

/-- The error outcomes a cycle can surface: a provider (embedding or
generation) failure, a missing dictionary key during flattening (Python
`KeyError`), or an out-of-range list access (Python `IndexError`). -/
inductive Err where
  | provider (msg : String)
  | keyError
  | indexError
deriving DecidableEq

/-- Embedding vectors, with exact integer coordinates standing in for the
floating-point coordinates of the real embedding space (the claims under
study depend only on the ordering of distances, not on their values). -/
abbrev Vec := List ℤ

/-- The external collaborators of the pipeline: the Unicode NFKD normalizer
used by `clean`, the sentence-embedding model (`embedder.encode` on a
single cleaned query), and the generation stage (tokenizer + `generator.generate`
+ decode on a prompt). Provider calls may fail, modelling raised exceptions. -/
structure Providers where
  nfkd : List Char → List Char
  embed : String → Except Err Vec
  gen : String → Except Err String

/-! Step 6/7: the vector index and retrieval (rag.py lines 87-111) -/

/-- Squared Euclidean (L2) distance, the metric of `faiss.IndexFlatL2`. -/
def sqDist (u v : Vec) : ℤ :=
  (List.zipWith (fun a b => (a - b) * (a - b)) u v).sum

/-- Ordering of search hits by distance (the second component). -/
def distLE (a b : Nat × ℤ) : Prop := a.2 ≤ b.2

instance : DecidableRel distLE :=
  fun a b => inferInstanceAs (Decidable (a.2 ≤ b.2))

instance : IsTotal (Nat × ℤ) distLE := ⟨fun a b => le_total a.2 b.2⟩

instance : IsTrans (Nat × ℤ) distLE := ⟨fun _ _ _ h1 h2 => le_trans h1 h2⟩

/-- Modelled from the spec: the FAISS `IndexFlatL2` search structure is an
external library, not code of this repository. Per the spec's Vector Index
contract, `search(queryVector, k)` returns an ordered list of
(index, distance) pairs, ascending by distance, of length ≤ k (fewer if the
index holds fewer vectors than k). `IndexFlatL2` is exact brute-force
search, so the model computes the distance from the query to every stored
vector and keeps the k nearest. -/
def searchL2 (index : List Vec) (q : Vec) (k : Nat) : List (Nat × ℤ) :=
  ((index.enum.map (fun p => (p.1, sqDist q p.2))).insertionSort distLE).take k

/-- Metadata of one chunk as built in the flatten loop (rag.py lines 72-81). -/
structure ChunkMeta where
  restaurant : String
  category : String
  item_name : String
  url : String
  price : String
  features : Option (List String)
deriving DecidableEq

/-- One retrieval hit as assembled by `retrieve` (rag.py lines 104-111). -/
structure RetrievalResult where
  text : String
  meta : ChunkMeta
  distance : ℤ
deriving DecidableEq

/-- Python list indexing `l[i]` for a non-negative index: `IndexError` when
out of range. -/
def pyGet {α : Type} (l : List α) (i : Nat) : Except Err α :=
  match l[i]? with
  | some a => .ok a
  | none => .error .indexError

/-- The list comprehension of `retrieve` (rag.py lines 104-111): join each
search hit back to its chunk text and metadata by position. -/
def joinHits (texts : List String) (meta : List ChunkMeta) :
    List (Nat × ℤ) → Except Err (List RetrievalResult)
  | [] => .ok []
  | (i, d) :: rest =>
    match pyGet texts i with
    | .error e => .error e
    | .ok t =>
      match pyGet meta i with
      | .error e => .error e
      | .ok m =>
        match joinHits texts meta rest with
        | .error e => .error e
        | .ok rs => .ok (⟨t, m, d⟩ :: rs)

/-- Constant `TOP_K = 3` (rag.py line 28). -/
def TOP_K : Nat := 3

/-- The function `retrieve(query, k)` (rag.py lines 101-111): clean the query, embed it,
search the index, and join the hits to chunk texts and metadata. An
embedding-provider failure propagates. -/
def retrieve (P : Providers) (index : List Vec) (texts : List String)
    (meta : List ChunkMeta) (query : String) (k : Nat) :
    Except Err (List RetrievalResult) :=
  match P.embed (clean P.nfkd query) with
  | .error e => .error e
  | .ok q => joinHits texts meta (searchL2 index q k)

/-! Step 11: the answer function (rag.py lines 161-199) -/

/-- Constant `DISTANCE_THRESHOLD = 1` (rag.py line 29). -/
def DISTANCE_THRESHOLD : ℤ := 1

/-- The canned refusal text (rag.py lines 167-170). -/
def REFUSAL : String :=
  "I do not know. The knowledge base does not contain " ++
  "information relevant to this question."

/-- The function `answer(query, conv, top_k)` (rag.py lines 161-199): retrieve, apply the
relevance gate, otherwise build the prompt, generate, post-process, record
the turn. The pair's second component is the conversation state after the
call; a raised error leaves it unchanged (no `conv.add` precedes a raise). -/
def answer (P : Providers) (index : List Vec) (texts : List String)
    (meta : List ChunkMeta) (query : String) (conv : Conversation)
    (top_k : Nat) :
    Except Err (String × List RetrievalResult) × Conversation :=
  match retrieve P index texts meta query top_k with
  | .error e => (.error e, conv)
  | .ok retrieved =>
    match retrieved with
    | [] => (.ok (REFUSAL, []), conv.add query REFUSAL)
    | r0 :: rest =>
      if DISTANCE_THRESHOLD < r0.distance then
        (.ok (REFUSAL, []), conv.add query REFUSAL)
      else
        let prompt := make_prompt query ((r0 :: rest).map RetrievalResult.text)
          conv.format_history
        match P.gen prompt with
        | .error e => (.error e, conv)
        | .ok raw =>
          let response := dedupe_tokens raw
          (.ok (response, r0 :: rest), conv.add query response)

/-! Step 5: the flatten loop (rag.py lines 61-83)

The loop reads Python dictionaries; a missing required key raises
`KeyError`. Entries are modelled as records of `Option` fields (a `none`
field is an absent key) and each dictionary access as `getKey`. -/

/-- Python dictionary access `d[key]`: `KeyError` when the key is absent. -/
def getKey {α : Type} : Option α → Except Err α
  | some a => .ok a
  | none => .error .keyError

/-- A raw catalog item as read from JSON; `none` means the key is absent.
`special_features` is additionally nullable when present. -/
structure RawItem where
  category : Option String
  item_name : Option String
  description : Option String
  special_features : Option (Option (List String))
  product_url : Option String
  price : Option String

/-- A raw catalog entry; `none` means the key is absent. -/
structure RawEntity where
  restaurant_name : Option String
  location : Option String
  items : Option (List RawItem)

/-- The chunk text of one item (rag.py lines 66-71): the f-string
interpolation of entity and item fields (with `special_features or []`
for a null feature list), passed through `clean`. -/
def chunkOfItem (nfkd : List Char → List Char) (rname rloc : String)
    (it : RawItem) : Except Err String :=
  match getKey it.category with
  | .error e => .error e
  | .ok cat =>
    match getKey it.item_name with
    | .error e => .error e
    | .ok nm =>
      match getKey it.description with
      | .error e => .error e
      | .ok desc =>
        match getKey it.special_features with
        | .error e => .error e
        | .ok sf =>
          .ok (clean nfkd (rname ++ " " ++ rloc ++ " " ++ cat ++ " " ++ nm ++
            " " ++ desc ++ " " ++ " ".intercalate (sf.getD [])))

/-- The metadata record of one item (rag.py lines 72-81). -/
def metaOfItem (rname : String) (it : RawItem) : Except Err ChunkMeta :=
  match getKey it.category with
  | .error e => .error e
  | .ok cat =>
    match getKey it.item_name with
    | .error e => .error e
    | .ok nm =>
      match getKey it.product_url with
      | .error e => .error e
      | .ok url =>
        match getKey it.price with
        | .error e => .error e
        | .ok pr =>
          match getKey it.special_features with
          | .error e => .error e
          | .ok sf => .ok ⟨rname, cat, nm, url, pr, sf⟩

/-- The inner loop of Step 5: one aligned (chunk, metadata) pair per item,
in declaration order. -/
def flattenItems (nfkd : List Char → List Char) (rname rloc : String) :
    List RawItem → Except Err (List (String × ChunkMeta))
  | [] => .ok []
  | it :: its =>
    match chunkOfItem nfkd rname rloc it with
    | .error e => .error e
    | .ok c =>
      match metaOfItem rname it with
      | .error e => .error e
      | .ok m =>
        match flattenItems nfkd rname rloc its with
        | .error e => .error e
        | .ok rest => .ok ((c, m) :: rest)

/-- The outer loop of Step 5 over all catalog entries. -/
def flattenEntities (nfkd : List Char → List Char) :
    List RawEntity → Except Err (List (String × ChunkMeta))
  | [] => .ok []
  | r :: rs =>
    match getKey r.restaurant_name with
    | .error e => .error e
    | .ok rname =>
      match getKey r.location with
      | .error e => .error e
      | .ok rloc =>
        match getKey r.items with
        | .error e => .error e
        | .ok its =>
          match flattenItems nfkd rname rloc its with
          | .error e => .error e
          | .ok pairs =>
            match flattenEntities nfkd rs with
            | .error e => .error e
            | .ok rest => .ok (pairs ++ rest)

/-- The flatten step (rag.py lines 61-83): the source appends each chunk to
`texts` and its matching metadata to `meta` in lockstep; modelled as the
list of aligned pairs projected to the two lists. -/
def flatten (nfkd : List Char → List Char) (rs : List RawEntity) :
    Except Err (List String × List ChunkMeta) :=
  match flattenEntities nfkd rs with
  | .error e => .error e
  | .ok pairs => .ok (pairs.map Prod.fst, pairs.map Prod.snd)

/-- Character-class invariant of cleaned text, used in the idempotence
proof for `clean`: every character of a cleaned string is an ASCII,
lowercase-stable word character, or a plain space. -/
def GoodChar (c : Char) : Prop :=
  c.toNat < 128 ∧ c.toLower = c ∧ (isWordChar c = true ∨ c = ' ')

/-! Concrete fixtures used by witness theorems -/

/-- A sample metadata record. -/
def wMeta : ChunkMeta := ⟨"r", "c", "n", "u", "p", none⟩

/-- Providers that always succeed: identity NFKD, constant embedding, empty
generation. -/
def wProviders : Providers := ⟨id, fun _ => .ok [0], fun _ => .ok "gen gen"⟩

/-- Providers whose embedding call fails. -/
def wEmbedErrProviders : Providers :=
  ⟨id, fun _ => .error (.provider "embed down"), fun _ => .ok ""⟩

/-- Providers whose generation call fails. -/
def wGenErrProviders : Providers :=
  ⟨id, fun _ => .ok [0], fun _ => .error (.provider "gen down")⟩

/-! Helper lemmas -/

lemma drop_append_singleton {α : Type} (a : α) :
    ∀ (n : Nat) (l : List α), n ≤ l.length → (l ++ [a]).drop n = l.drop n ++ [a] := by
  intro n
  induction n with
  | zero => intro l _; simp
  | succ m ih =>
    intro l hl
    cases l with
    | nil => simp at hl
    | cons x xs =>
      simp only [List.cons_append, List.drop_succ_cons]
      exact ih xs (by simpa using hl)

lemma add_max (c : Conversation) (u a : String) : (c.add u a).max = c.max := by
  show (if (c.memory ++ [(u, a)]).length > c.max then
      ({ c with memory := (c.memory ++ [(u, a)]).drop 1 } : Conversation)
    else { c with memory := c.memory ++ [(u, a)] }).max = c.max
  split <;> rfl

lemma add_memory (c : Conversation) (u a : String) :
    (c.add u a).memory =
      if (c.memory ++ [(u, a)]).length > c.max then (c.memory ++ [(u, a)]).drop 1
      else c.memory ++ [(u, a)] := by
  show (if (c.memory ++ [(u, a)]).length > c.max then
      ({ c with memory := (c.memory ++ [(u, a)]).drop 1 } : Conversation)
    else { c with memory := c.memory ++ [(u, a)] }).memory = _
  split <;> rfl

lemma foldl_add_max (adds : List (String × String)) :
    ∀ c : Conversation,
      (adds.foldl (fun c t => c.add t.1 t.2) c).max = c.max := by
  induction adds with
  | nil => intro c; rfl
  | cons t ts ih =>
    intro c
    rw [List.foldl_cons, ih, add_max]

lemma runAdds_max (n : Nat) (adds : List (String × String)) :
    (runAdds n adds).max = n :=
  foldl_add_max adds ⟨n, []⟩

lemma runAdds_append (n : Nat) (adds : List (String × String))
    (x : String × String) :
    runAdds n (adds ++ [x]) = (runAdds n adds).add x.1 x.2 := by
  unfold runAdds
  rw [List.foldl_append]
  rfl

lemma runAdds_memory (n : Nat) (hn : 1 ≤ n) (adds : List (String × String)) :
    (runAdds n adds).memory = adds.drop (adds.length - n) := by
  induction adds using List.reverseRecOn with
  | nil => simp [runAdds]
  | append_singleton l x ih =>
    rw [runAdds_append, add_memory, runAdds_max, ih]
    have hx : ((x.1, x.2) : String × String) = x := rfl
    have hll : (l ++ [x]).length = l.length + 1 := by simp
    by_cases hlen : l.length < n
    · have h0 : l.length - n = 0 := by omega
      rw [h0, List.drop_zero, hx, if_neg (by rw [hll]; omega), hll]
      have h1 : l.length + 1 - n = 0 := by omega
      rw [h1, List.drop_zero]
    · have hlelen : n ≤ l.length := by omega
      have hdl : (l.drop (l.length - n)).length = n := by simp; omega
      rw [hx, if_pos (by rw [List.length_append, hdl]; simp)]
      rw [drop_append_singleton x 1 (l.drop (l.length - n)) (by omega),
        List.drop_drop,
        ← drop_append_singleton x (l.length - n + 1) l (by omega), hll]
      congr 1
      omega

lemma dedupeGo_chain (ts : List String) :
    ∀ out : List String,
      (∀ t, ts.head? = some t → out.getLast? ≠ some t) →
      ts.Chain' (fun a b => a ≠ b) →
      dedupeGo out ts = out ++ ts := by
  induction ts with
  | nil => intro out _ _; simp [dedupeGo]
  | cons tok toks ih =>
    intro out hhead hchain
    have hne : ¬ out.getLast? = some tok := hhead tok rfl
    rw [dedupeGo, if_neg hne]
    rw [List.chain'_cons'] at hchain
    have := ih (out ++ [tok]) (by
      intro t ht
      rw [List.getLast?_concat]
      intro hEq
      exact hchain.1 t ht (by injection hEq))
      hchain.2
    rw [this, List.append_assoc]
    rfl

/-! Claims -/

/-- Claim C5: for every capacity N ≥ 1 and every finite sequence of
`add(question, answer)` calls starting from an empty Conversation of
capacity N, after each add the stored turn count never exceeds N and the
stored content equals the most recent min(N, number of adds) turns in
chronological (oldest-first) order. -/
theorem memory_bound_and_content (n : Nat) (hn : 1 ≤ n)
    (adds : List (String × String)) :
    (runAdds n adds).memory.length ≤ n ∧
    (runAdds n adds).memory = adds.drop (adds.length - n) := by
  refine ⟨?_, runAdds_memory n hn adds⟩
  rw [runAdds_memory n hn adds]
  simp
  omega

/-- Witness for C5: three adds into a capacity-2 conversation keep only the
last two turns. -/
theorem memory_bound_and_content_witness :
    (runAdds 2 [("q1", "a1"), ("q2", "a2"), ("q3", "a3")]).memory.length ≤ 2 ∧
    (runAdds 2 [("q1", "a1"), ("q2", "a2"), ("q3", "a3")]).memory =
      [("q2", "a2"), ("q3", "a3")] := by
  have h := memory_bound_and_content 2 (by decide)
    [("q1", "a1"), ("q2", "a2"), ("q3", "a3")]
  exact ⟨h.1, by rw [h.2]; rfl⟩

/-- Claim C6: `dedupe_tokens` splits on whitespace, keeps a token only when
it differs from the previous kept token, and rejoins with single spaces:
the token sequence a a b b b c collapses to a b c, and an input whose token
sequence has no adjacent equal tokens keeps its token sequence. -/
theorem dedupe_tokens_spec :
    dedupe_tokens "a a b b b c" = "a b c" ∧
    ∀ s : String, (pySplit s).Chain' (fun a b => a ≠ b) →
      dedupe_tokens s = " ".intercalate (pySplit s) := by
  constructor
  · decide
  · intro s hchain
    cases hs : pySplit s with
    | nil =>
      unfold dedupe_tokens
      rw [hs]
    | cons t rest =>
      rw [hs] at hchain
      rw [List.chain'_cons'] at hchain
      have hred : dedupe_tokens s = " ".intercalate (dedupeGo [t] rest) := by
        unfold dedupe_tokens
        rw [hs]
      rw [hred,
        dedupeGo_chain rest [t] (by
          intro u hu hEq
          simp only [List.getLast?_singleton] at hEq
          injection hEq with h
          exact hchain.1 u (Option.mem_def.mpr hu) h) hchain.2]
      rfl

/-- Witness for C6: a token sequence with no adjacent repeats is returned
with the same token sequence. -/
theorem dedupe_tokens_spec_witness :
    dedupe_tokens "x y x" = " ".intercalate (pySplit "x y x") :=
  dedupe_tokens_spec.2 "x y x" (by
    have h : pySplit "x y x" = ["x", "y", "x"] := rfl
    rw [h]
    refine List.chain'_cons.mpr ⟨by decide, ?_⟩
    exact List.chain'_cons.mpr ⟨by decide, List.chain'_singleton "x"⟩)

/-- Claim C10: `format_history` returns the empty string when there are no
turns and a newline-terminated string otherwise, so `make_prompt` never
joins the last history line and the CONTEXT label onto one line: a newline
always immediately precedes the CONTEXT block. -/
theorem format_history_newline (conv : Conversation) (q : String)
    (ctx : List String) :
    (conv.memory = [] → conv.format_history = "") ∧
    (conv.memory ≠ [] → ∃ t, conv.format_history = t ++ "\n") ∧
    ∃ pre, make_prompt q ctx conv.format_history =
      pre ++ "\n" ++ "CONTEXT:\n" ++ "\n".intercalate ctx ++
        "\n\nQuestion: " ++ q ++ "\nAnswer:" := by
  refine ⟨?_, ?_, ?_⟩
  · intro h
    simp [Conversation.format_history, h]
  · intro h
    exact ⟨"\n".intercalate
      (conv.memory.map (fun t => "User: " ++ t.1 ++ "\nAssistant: " ++ t.2)),
      by simp [Conversation.format_history, h]⟩
  · by_cases h : conv.memory = []
    · refine ⟨SYSTEM ++ "\n", ?_⟩
      simp only [make_prompt, Conversation.format_history, if_pos h]
      apply String.ext
      simp
    · refine ⟨SYSTEM ++ "\n\n" ++ "\n".intercalate
        (conv.memory.map (fun t => "User: " ++ t.1 ++ "\nAssistant: " ++ t.2)),
        ?_⟩
      simp only [make_prompt, Conversation.format_history, if_neg h]
      apply String.ext
      simp

lemma flattenItems_mem (nfkd : List Char → List Char) (rname rloc : String)
    (its : List RawItem) :
    ∀ pairs, flattenItems nfkd rname rloc its = .ok pairs →
      ∀ p ∈ pairs, ∃ it ∈ its,
        chunkOfItem nfkd rname rloc it = .ok p.1 ∧
        metaOfItem rname it = .ok p.2 := by
  induction its with
  | nil =>
    intro pairs h p hp
    simp only [flattenItems] at h
    injection h with h
    subst h
    simp at hp
  | cons it its ih =>
    intro pairs h p hp
    unfold flattenItems at h
    cases hc : chunkOfItem nfkd rname rloc it with
    | error e => rw [hc] at h; exact Except.noConfusion h
    | ok c =>
      rw [hc] at h
      cases hm : metaOfItem rname it with
      | error e => rw [hm] at h; exact Except.noConfusion h
      | ok m =>
        rw [hm] at h
        cases hr : flattenItems nfkd rname rloc its with
        | error e => rw [hr] at h; exact Except.noConfusion h
        | ok rest =>
          rw [hr] at h
          injection h with h
          subst h
          cases hp with
          | head => exact ⟨it, List.mem_cons_self it its, hc, hm⟩
          | tail _ hp =>
            obtain ⟨it', hit', h1, h2⟩ := ih rest hr p hp
            exact ⟨it', List.mem_cons_of_mem it hit', h1, h2⟩

lemma flattenEntities_mem (nfkd : List Char → List Char)
    (rs : List RawEntity) :
    ∀ pairs, flattenEntities nfkd rs = .ok pairs →
      ∀ p ∈ pairs, ∃ rname rloc it,
        chunkOfItem nfkd rname rloc it = .ok p.1 ∧
        metaOfItem rname it = .ok p.2 := by
  induction rs with
  | nil =>
    intro pairs h p hp
    simp only [flattenEntities] at h
    injection h with h
    subst h
    simp at hp
  | cons r rs ih =>
    intro pairs h p hp
    unfold flattenEntities at h
    cases hn : r.restaurant_name with
    | none => rw [hn] at h; exact Except.noConfusion h
    | some rname =>
      rw [hn] at h
      cases hl : r.location with
      | none => rw [hl] at h; exact Except.noConfusion h
      | some rloc =>
        rw [hl] at h
        cases hi : r.items with
        | none => rw [hi] at h; exact Except.noConfusion h
        | some its =>
          rw [hi] at h
          simp only [getKey] at h
          cases hf : flattenItems nfkd rname rloc its with
          | error e => rw [hf] at h; exact Except.noConfusion h
          | ok ps =>
            rw [hf] at h
            cases hrest : flattenEntities nfkd rs with
            | error e => rw [hrest] at h; exact Except.noConfusion h
            | ok rest =>
              rw [hrest] at h
              injection h with h
              subst h
              rcases List.mem_append.mp hp with hp | hp
              · obtain ⟨it, _, h1, h2⟩ :=
                  flattenItems_mem nfkd rname rloc its ps hf p hp
                exact ⟨rname, rloc, it, h1, h2⟩
              · exact ih rest hrest p hp

/-- Claim C4: for every well-formed corpus (one on which flattening
succeeds), the chunk list and the metadata list have equal length, and the
chunk at each index i is derived from the same catalog item — some entity
name, location and item produce both the chunk at i and the metadata at i. -/
theorem flatten_alignment (nfkd : List Char → List Char)
    (rs : List RawEntity) (texts : List String) (meta : List ChunkMeta)
    (h : flatten nfkd rs = .ok (texts, meta)) :
    texts.length = meta.length ∧
    ∀ (i : Nat) (t : String) (m : ChunkMeta),
      texts[i]? = some t → meta[i]? = some m →
      ∃ rname rloc it,
        chunkOfItem nfkd rname rloc it = .ok t ∧
        metaOfItem rname it = .ok m := by
  unfold flatten at h
  cases hf : flattenEntities nfkd rs with
  | error e => rw [hf] at h; exact Except.noConfusion h
  | ok pairs =>
    rw [hf] at h
    injection h with h
    have ht : texts = pairs.map Prod.fst := (congrArg Prod.fst h).symm
    have hm : meta = pairs.map Prod.snd := (congrArg Prod.snd h).symm
    subst ht
    subst hm
    refine ⟨by simp, ?_⟩
    intro i t m hti hmi
    rw [List.getElem?_map] at hti hmi
    cases hpi : pairs[i]? with
    | none => rw [hpi] at hti; exact Option.noConfusion hti
    | some p =>
      rw [hpi] at hti hmi
      simp only [Option.map_some'] at hti hmi
      injection hti with hti
      injection hmi with hmi
      obtain ⟨rname, rloc, it, h1, h2⟩ :=
        flattenEntities_mem nfkd rs pairs hf p (List.getElem?_mem hpi)
      exact ⟨rname, rloc, it, by rw [← hti]; exact h1, by rw [← hmi]; exact h2⟩

/-- Witness for C4: a one-entity, one-item corpus flattens to aligned
singleton lists whose entry pair comes from that item. -/
theorem flatten_alignment_witness :
    flatten id [⟨some "R", some "L",
        some [⟨some "c", some "n", some "d", some none, some "u", some "p"⟩]⟩] =
      .ok (["r l c n d"], [⟨"R", "c", "n", "u", "p", none⟩]) ∧
    (["r l c n d"] : List String).length =
      ([⟨"R", "c", "n", "u", "p", none⟩] : List ChunkMeta).length := by
  have hflat : flatten id [⟨some "R", some "L",
      some [⟨some "c", some "n", some "d", some none, some "u", some "p"⟩]⟩] =
      .ok (["r l c n d"], [⟨"R", "c", "n", "u", "p", none⟩]) := by
    unfold flatten flattenEntities flattenItems chunkOfItem metaOfItem
    rfl
  exact ⟨hflat, (flatten_alignment id _ _ _ hflat).1⟩

lemma flattenItems_missing (nfkd : List Char → List Char)
    (rname rloc : String) (its : List RawItem)
    (h : ∃ it ∈ its, it.category = none ∨ it.item_name = none) :
    ∃ e, flattenItems nfkd rname rloc its = .error e := by
  induction its with
  | nil => obtain ⟨it, hit, _⟩ := h; simp at hit
  | cons it0 its ih =>
    obtain ⟨it, hit, hb⟩ := h
    unfold flattenItems
    rcases List.mem_cons.mp hit with heq | hmem
    · subst heq
      have hc : chunkOfItem nfkd rname rloc it = .error .keyError := by
        unfold chunkOfItem
        rcases hb with hb | hb
        · rw [hb]; rfl
        · cases hcat : it.category with
          | none => rfl
          | some cat => rw [hb]; rfl
      rw [hc]
      exact ⟨.keyError, rfl⟩
    · obtain ⟨e, he⟩ := ih ⟨it, hmem, hb⟩
      cases hc : chunkOfItem nfkd rname rloc it0 with
      | error e0 => exact ⟨e0, rfl⟩
      | ok c =>
        cases hm : metaOfItem rname it0 with
        | error e0 => exact ⟨e0, rfl⟩
        | ok m => exact ⟨e, by rw [he]⟩

lemma flattenEntities_missing (nfkd : List Char → List Char)
    (rs : List RawEntity)
    (h : ∃ r ∈ rs, r.restaurant_name = none ∨ r.location = none ∨
      ∃ its, r.items = some its ∧
        ∃ it ∈ its, it.category = none ∨ it.item_name = none) :
    ∃ e, flattenEntities nfkd rs = .error e := by
  induction rs with
  | nil => obtain ⟨r, hr, _⟩ := h; simp at hr
  | cons r0 rs ih =>
    obtain ⟨r, hr, hbad⟩ := h
    unfold flattenEntities
    rcases List.mem_cons.mp hr with heq | hmem
    · subst heq
      rcases hbad with hb | hb | ⟨its, hits, hbaditem⟩
      · rw [hb]; exact ⟨.keyError, rfl⟩
      · cases hn : r.restaurant_name with
        | none => exact ⟨.keyError, rfl⟩
        | some rname => rw [hb]; exact ⟨.keyError, rfl⟩
      · cases hn : r.restaurant_name with
        | none => exact ⟨.keyError, rfl⟩
        | some rname =>
          cases hl : r.location with
          | none => exact ⟨.keyError, rfl⟩
          | some rloc =>
            rw [hits]
            simp only [getKey]
            obtain ⟨e, he⟩ := flattenItems_missing nfkd rname rloc its hbaditem
            rw [he]
            exact ⟨e, rfl⟩
    · obtain ⟨e, he⟩ := ih ⟨r, hmem, hbad⟩
      cases hn : r0.restaurant_name with
      | none => exact ⟨.keyError, rfl⟩
      | some rname =>
        cases hl : r0.location with
        | none => exact ⟨.keyError, rfl⟩
        | some rloc =>
          cases hi : r0.items with
          | none => exact ⟨.keyError, rfl⟩
          | some its =>
            simp only [getKey]
            cases hf : flattenItems nfkd rname rloc its with
            | error e0 => exact ⟨e0, rfl⟩
            | ok ps =>
              rw [he]
              exact ⟨e, rfl⟩

/-- Claim C9: a corpus entry missing a required field (entity name,
location, item category, or item name) makes flattening fail with an
error — the entry is never silently skipped. -/
theorem flatten_missing_field_fails (nfkd : List Char → List Char)
    (rs : List RawEntity)
    (h : ∃ r ∈ rs, r.restaurant_name = none ∨ r.location = none ∨
      ∃ its, r.items = some its ∧
        ∃ it ∈ its, it.category = none ∨ it.item_name = none) :
    ∃ e, flatten nfkd rs = .error e := by
  obtain ⟨e, he⟩ := flattenEntities_missing nfkd rs h
  exact ⟨e, by unfold flatten; rw [he]⟩

/-- Witness for C9: an entry whose item lacks `item_name` makes flatten
fail. -/
theorem flatten_missing_field_fails_witness :
    ∃ e, flatten id [⟨some "R", some "L",
        some [⟨some "c", none, some "d", some none, some "u", some "p"⟩]⟩] =
      .error e :=
  flatten_missing_field_fails id _
    ⟨_, List.mem_singleton.mpr rfl, Or.inr (Or.inr
      ⟨_, rfl, _, List.mem_singleton.mpr rfl, Or.inr rfl⟩)⟩

/-- Witness for C10: on an empty conversation the history is empty and the
prompt still carries a newline right before the CONTEXT label. -/
theorem format_history_newline_witness :
    (⟨3, []⟩ : Conversation).format_history = "" ∧
    ∃ pre, make_prompt "q" ["c1"] (⟨3, []⟩ : Conversation).format_history =
      pre ++ "\n" ++ "CONTEXT:\n" ++ "\n".intercalate ["c1"] ++
        "\n\nQuestion: " ++ "q" ++ "\nAnswer:" := by
  have h := format_history_newline ⟨3, []⟩ "q" ["c1"]
  exact ⟨h.1 rfl, h.2.2⟩

lemma searchL2_sorted (index : List Vec) (q : Vec) (k : Nat) :
    (searchL2 index q k).Pairwise distLE := by
  have h := List.sorted_insertionSort distLE
    (index.enum.map (fun p => (p.1, sqDist q p.2)))
  exact List.Pairwise.sublist (List.take_sublist k _) h

lemma searchL2_length (index : List Vec) (q : Vec) (k : Nat) :
    (searchL2 index q k).length = min k index.length := by
  simp [searchL2]

lemma searchL2_mem_lt (index : List Vec) (q : Vec) (k : Nat) :
    ∀ p ∈ searchL2 index q k, p.1 < index.length := by
  intro p hp
  have hmem : p ∈ (index.enum.map (fun p => (p.1, sqDist q p.2))) :=
    (List.mem_insertionSort distLE).mp (List.mem_of_mem_take hp)
  obtain ⟨x, hx, hxp⟩ := List.mem_map.mp hmem
  have hx1 : x.1 < index.length := by
    have := List.mem_enum_iff_getElem?.mp hx
    have := List.getElem?_eq_some_iff.mp this
    exact this.1
  rw [← hxp]
  exact hx1

lemma joinHits_ok (texts : List String) (meta : List ChunkMeta) :
    ∀ hits : List (Nat × ℤ),
      (∀ p ∈ hits, p.1 < texts.length ∧ p.1 < meta.length) →
      ∃ rs, joinHits texts meta hits = .ok rs ∧
        rs.length = hits.length ∧
        rs.map RetrievalResult.distance = hits.map Prod.snd := by
  intro hits
  induction hits with
  | nil => intro _; exact ⟨[], rfl, rfl, rfl⟩
  | cons hd rest ih =>
    intro hlt
    obtain ⟨i, d⟩ := hd
    have hi := hlt (i, d) (List.mem_cons_self _ _)
    obtain ⟨rs, hrs, hlen, hdist⟩ :=
      ih (fun p hp => hlt p (List.mem_cons_of_mem _ hp))
    refine ⟨⟨texts[i], meta[i], d⟩ :: rs, ?_, by simp [hlen], by simp [hdist]⟩
    show joinHits texts meta ((i, d) :: rest) = _
    unfold joinHits
    have ht : pyGet texts i = .ok texts[i] := by
      unfold pyGet
      rw [List.getElem?_eq_getElem hi.1]
    have hm : pyGet meta i = .ok meta[i] := by
      unfold pyGet
      rw [List.getElem?_eq_getElem hi.2]
    rw [ht, hm, hrs]

/-- Claim C2: for every query and k ≥ 1 (when the index, chunk list and
metadata list are aligned and the embedding provider answers), `retrieve`
returns without raising, and its result is empty only if the index holds no
vectors. -/
theorem retrieve_empty_iff_index_empty (P : Providers) (index : List Vec)
    (texts : List String) (meta : List ChunkMeta) (query : String) (k : Nat)
    (qv : Vec)
    (halign1 : index.length = texts.length)
    (halign2 : index.length = meta.length)
    (hk : 1 ≤ k)
    (hembed : P.embed (clean P.nfkd query) = .ok qv) :
    ∃ rs, retrieve P index texts meta query k = .ok rs ∧
      (rs = [] ↔ index = []) := by
  obtain ⟨rs, hrs, hlen, _⟩ := joinHits_ok texts meta (searchL2 index qv k)
    (fun p hp => ⟨halign1 ▸ searchL2_mem_lt index qv k p hp,
      halign2 ▸ searchL2_mem_lt index qv k p hp⟩)
  refine ⟨rs, ?_, ?_⟩
  · unfold retrieve
    rw [hembed]
    exact hrs
  · rw [← List.length_eq_zero, ← List.length_eq_zero, hlen,
      searchL2_length index qv k]
    omega

/-- Witness for C2: on a two-vector index, retrieval with k = 1 succeeds
and is nonempty. -/
theorem retrieve_empty_iff_index_empty_witness :
    ∃ rs, retrieve wProviders [[(0 : ℤ)], [3]] ["t0", "t1"] [wMeta, wMeta]
        "q" 1 = .ok rs ∧
      (rs = [] ↔ ([[(0 : ℤ)], [3]] : List Vec) = []) :=
  retrieve_empty_iff_index_empty wProviders [[(0 : ℤ)], [3]] ["t0", "t1"]
    [wMeta, wMeta] "q" 1 [0] rfl rfl (by decide) rfl

/-- Claim C3: for every query and k ≥ 1 (when the index, chunk list and
metadata list are aligned and the embedding provider answers), the results
of `retrieve` are ordered by non-decreasing distance, number at most k, and
number fewer than k exactly when the index holds fewer than k vectors. -/
theorem retrieve_sorted_and_bounded (P : Providers) (index : List Vec)
    (texts : List String) (meta : List ChunkMeta) (query : String) (k : Nat)
    (qv : Vec)
    (halign1 : index.length = texts.length)
    (halign2 : index.length = meta.length)
    (_hk : 1 ≤ k)
    (hembed : P.embed (clean P.nfkd query) = .ok qv) :
    ∃ rs, retrieve P index texts meta query k = .ok rs ∧
      (rs.map RetrievalResult.distance).Pairwise (fun a b => a ≤ b) ∧
      rs.length ≤ k ∧
      (rs.length < k ↔ index.length < k) := by
  obtain ⟨rs, hrs, hlen, hdist⟩ := joinHits_ok texts meta (searchL2 index qv k)
    (fun p hp => ⟨halign1 ▸ searchL2_mem_lt index qv k p hp,
      halign2 ▸ searchL2_mem_lt index qv k p hp⟩)
  refine ⟨rs, ?_, ?_, ?_, ?_⟩
  · unfold retrieve
    rw [hembed]
    exact hrs
  · rw [hdist]
    rw [List.pairwise_map]
    exact searchL2_sorted index qv k
  · rw [hlen, searchL2_length index qv k]
    omega
  · rw [hlen, searchL2_length index qv k]
    omega

/-- Witness for C3: on a two-vector index with k = 1, the result has one
element, hence is (trivially) sorted and shorter than k only when the index
is. -/
theorem retrieve_sorted_and_bounded_witness :
    ∃ rs, retrieve wProviders [[(0 : ℤ)], [3]] ["t0", "t1"] [wMeta, wMeta]
        "q" 1 = .ok rs ∧
      (rs.map RetrievalResult.distance).Pairwise (fun a b => a ≤ b) ∧
      rs.length ≤ 1 ∧
      (rs.length < 1 ↔ ([[(0 : ℤ)], [3]] : List Vec).length < 1) :=
  retrieve_sorted_and_bounded wProviders [[(0 : ℤ)], [3]] ["t0", "t1"]
    [wMeta, wMeta] "q" 1 [0] rfl rfl (by decide) rfl

lemma answer_retrieve_cons (P : Providers) (index : List Vec)
    (texts : List String) (meta : List ChunkMeta) (query : String)
    (conv : Conversation) (top_k : Nat) (r0 : RetrievalResult)
    (rest : List RetrievalResult)
    (hret : retrieve P index texts meta query top_k = .ok (r0 :: rest)) :
    answer P index texts meta query conv top_k =
      if DISTANCE_THRESHOLD < r0.distance then
        (.ok (REFUSAL, []), conv.add query REFUSAL)
      else
        match P.gen (make_prompt query ((r0 :: rest).map RetrievalResult.text)
            conv.format_history) with
        | .error e => (.error e, conv)
        | .ok raw =>
          (.ok (dedupe_tokens raw, r0 :: rest),
            conv.add query (dedupe_tokens raw)) := by
  unfold answer
  rw [hret]

/-- Claim C1: whenever retrieval yields an empty list, or its nearest
(first) result has distance above the threshold (1, i.e. the default 1.0),
`answer` returns exactly the canned refusal paired with an empty evidence
list, and records the (query, refusal) turn in memory. -/
theorem answer_gate_refusal (P : Providers) (index : List Vec)
    (texts : List String) (meta : List ChunkMeta) (query : String)
    (conv : Conversation) (top_k : Nat) (rs : List RetrievalResult)
    (hret : retrieve P index texts meta query top_k = .ok rs)
    (hgate : rs = [] ∨
      ∃ r0, rs.head? = some r0 ∧ DISTANCE_THRESHOLD < r0.distance) :
    answer P index texts meta query conv top_k =
      (.ok (REFUSAL, []), conv.add query REFUSAL) := by
  cases rs with
  | nil =>
    unfold answer
    rw [hret]
  | cons r0 rest =>
    rcases hgate with hgate | ⟨r0', hh, hd⟩
    · exact List.noConfusion hgate
    · injection hh with hh
      subst hh
      rw [answer_retrieve_cons P index texts meta query conv top_k r0 rest hret,
        if_pos hd]

/-- Witness for C1: a query whose nearest vector is at squared distance 25
(> 1) makes `answer` refuse and record the refusal turn. -/
theorem answer_gate_refusal_witness :
    answer wProviders [[(5 : ℤ)]] ["t0"] [wMeta] "q" ⟨3, []⟩ 3 =
      (.ok (REFUSAL, []), (⟨3, []⟩ : Conversation).add "q" REFUSAL) :=
  answer_gate_refusal wProviders [[(5 : ℤ)]] ["t0"] [wMeta] "q" ⟨3, []⟩ 3
    [⟨"t0", wMeta, 25⟩] rfl
    (Or.inr ⟨⟨"t0", wMeta, 25⟩, rfl, by decide⟩)

/-- Claim C7: if the embedding provider or the generation provider raises
during `answer`, the error propagates to the caller and the conversation
memory is left unchanged — no partial turn is recorded. -/
theorem answer_provider_error_no_mutation (P : Providers) (index : List Vec)
    (texts : List String) (meta : List ChunkMeta) (query : String)
    (conv : Conversation) (top_k : Nat) (e : Err) :
    (P.embed (clean P.nfkd query) = .error e →
      answer P index texts meta query conv top_k = (.error e, conv)) ∧
    (∀ (r0 : RetrievalResult) (rest : List RetrievalResult),
      retrieve P index texts meta query top_k = .ok (r0 :: rest) →
      ¬ DISTANCE_THRESHOLD < r0.distance →
      P.gen (make_prompt query ((r0 :: rest).map RetrievalResult.text)
        conv.format_history) = .error e →
      answer P index texts meta query conv top_k = (.error e, conv)) := by
  constructor
  · intro hembed
    have hr : retrieve P index texts meta query top_k = .error e := by
      unfold retrieve
      rw [hembed]
    unfold answer
    rw [hr]
  · intro r0 rest hret hgate hgen
    rw [answer_retrieve_cons P index texts meta query conv top_k r0 rest hret,
      if_neg hgate, hgen]

/-- Witness for C7: a failing embedding provider and a failing generation
provider both abort the cycle with the provider's error, leaving the
conversation memory empty. -/
theorem answer_provider_error_no_mutation_witness :
    answer wEmbedErrProviders [[(0 : ℤ)]] ["t0"] [wMeta] "q" ⟨3, []⟩ 3 =
      (.error (.provider "embed down"), (⟨3, []⟩ : Conversation)) ∧
    answer wGenErrProviders [[(0 : ℤ)]] ["t0"] [wMeta] "q" ⟨3, []⟩ 3 =
      (.error (.provider "gen down"), (⟨3, []⟩ : Conversation)) :=
  ⟨(answer_provider_error_no_mutation wEmbedErrProviders [[(0 : ℤ)]] ["t0"]
      [wMeta] "q" ⟨3, []⟩ 3 (.provider "embed down")).1 rfl,
   (answer_provider_error_no_mutation wGenErrProviders [[(0 : ℤ)]] ["t0"]
      [wMeta] "q" ⟨3, []⟩ 3 (.provider "gen down")).2 ⟨"t0", wMeta, 0⟩ []
      rfl (by decide) rfl⟩

/-! Character-level lemmas for the `clean` idempotence claim -/

lemma toLower_eq (c : Char) :
    c.toLower = if c.toNat ≥ 65 ∧ c.toNat ≤ 90 then Char.ofNat (c.toNat + 32)
      else c := rfl

lemma toNat_ofNat_lt (m : Nat) (hm : m < 55296) : (Char.ofNat m).toNat = m := by
  have hv : m.isValidChar := Or.inl hm
  show (dite m.isValidChar (fun h => Char.ofNatAux m h) _).toNat = m
  rw [dif_pos hv]
  rfl

lemma toLower_toLower (c : Char) : c.toLower.toLower = c.toLower := by
  by_cases h : c.toNat ≥ 65 ∧ c.toNat ≤ 90
  · have h1 : c.toLower = Char.ofNat (c.toNat + 32) := by
      rw [toLower_eq, if_pos h]
    have hnat : (Char.ofNat (c.toNat + 32)).toNat = c.toNat + 32 :=
      toNat_ofNat_lt _ (by omega)
    rw [h1, toLower_eq, hnat, if_neg (by omega)]
  · have h1 : c.toLower = c := by rw [toLower_eq, if_neg h]
    rw [h1]
    exact h1

lemma toLower_ascii (c : Char) (hc : c.toNat < 128) : c.toLower.toNat < 128 := by
  by_cases h : c.toNat ≥ 65 ∧ c.toNat ≤ 90
  · have h1 : c.toLower = Char.ofNat (c.toNat + 32) := by
      rw [toLower_eq, if_pos h]
    rw [h1, toNat_ofNat_lt _ (by omega)]
    omega
  · rw [toLower_eq, if_neg h]
    exact hc

lemma isWordChar_not_space (c : Char) (h : isWordChar c = true) :
    pyIsSpace c = false := by
  by_contra hne
  have hsp : pyIsSpace c = true := by
    cases hb : pyIsSpace c
    · exact absurd hb hne
    · rfl
  unfold pyIsSpace at hsp
  simp only [Bool.or_eq_true, beq_iff_eq] at hsp
  rcases hsp with ((((h1 | h1) | h1) | h1) | h1) | h1 <;> subst h1 <;>
    exact absurd h (by decide)

lemma map_eq_self_of {α : Type} (f : α → α) (l : List α)
    (h : ∀ c ∈ l, f c = c) : l.map f = l := by
  induction l with
  | nil => rfl
  | cons c cs ih =>
    rw [List.map_cons, h c (List.mem_cons_self c cs),
      ih (fun d hd => h d (List.mem_cons_of_mem c hd))]

/-! List-level lemmas for the `clean` idempotence claim -/

lemma collapseSpaces_sublist : ∀ l : List Char, List.Sublist (collapseSpaces l) l := by
  intro l
  induction l with
  | nil => exact List.Sublist.refl []
  | cons c cs ih =>
    cases cs with
    | nil => exact List.Sublist.refl [c]
    | cons d rest =>
      show List.Sublist (if c = ' ' ∧ d = ' ' then collapseSpaces (d :: rest)
        else c :: collapseSpaces (d :: rest)) (c :: d :: rest)
      by_cases h : c = ' ' ∧ d = ' '
      · rw [if_pos h]
        exact ih.cons c
      · rw [if_neg h]
        exact ih.cons₂ c

lemma collapseSpaces_head (d : Char) (rest : List Char) :
    (collapseSpaces (d :: rest)).head? = some d ∨ d = ' ' := by
  cases rest with
  | nil => exact Or.inl rfl
  | cons e r =>
    by_cases h : d = ' ' ∧ e = ' '
    · exact Or.inr h.1
    · left
      show (if d = ' ' ∧ e = ' ' then collapseSpaces (e :: r)
        else d :: collapseSpaces (e :: r)).head? = some d
      rw [if_neg h]
      rfl

lemma collapseSpaces_chain :
    ∀ l : List Char,
      (collapseSpaces l).Chain' (fun a b : Char => ¬(a = ' ' ∧ b = ' ')) := by
  intro l
  induction l with
  | nil => exact List.chain'_nil
  | cons c cs ih =>
    cases cs with
    | nil => exact List.chain'_singleton c
    | cons d rest =>
      show List.Chain' _ (if c = ' ' ∧ d = ' ' then collapseSpaces (d :: rest)
        else c :: collapseSpaces (d :: rest))
      by_cases h : c = ' ' ∧ d = ' '
      · rw [if_pos h]
        exact ih
      · rw [if_neg h]
        refine List.Chain'.cons' ih ?_
        intro y hy
        rcases collapseSpaces_head d rest with hh | hd'
        · rw [hh] at hy
          have hyd : y = d := by
            simp only [Option.mem_def, Option.some.injEq] at hy
            exact hy.symm
          subst hyd
          exact h
        · intro hcon
          exact h ⟨hcon.1, hd'⟩

lemma collapseSpaces_eq_self_of_chain :
    ∀ l : List Char,
      l.Chain' (fun a b : Char => ¬(a = ' ' ∧ b = ' ')) →
      collapseSpaces l = l := by
  intro l h
  induction l with
  | nil => rfl
  | cons c cs ih =>
    cases cs with
    | nil => rfl
    | cons d rest =>
      rw [List.chain'_cons] at h
      show (if c = ' ' ∧ d = ' ' then collapseSpaces (d :: rest)
        else c :: collapseSpaces (d :: rest)) = c :: d :: rest
      rw [if_neg h.1, ih h.2]

lemma stripL_sublist (l : List Char) : List.Sublist (stripL l) l := by
  unfold stripL
  have h1 : List.Sublist (l.dropWhile pyIsSpace) l :=
    (List.dropWhile_suffix pyIsSpace).sublist
  have h2 : List.Sublist ((l.dropWhile pyIsSpace).reverse.dropWhile pyIsSpace)
      (l.dropWhile pyIsSpace).reverse :=
    (List.dropWhile_suffix pyIsSpace).sublist
  have h3 := h2.reverse
  rw [List.reverse_reverse] at h3
  exact h3.trans h1

lemma stripL_chain (R : Char → Char → Prop)
    (hsymm : ∀ a b, R a b → R b a) (l : List Char) (h : l.Chain' R) :
    (stripL l).Chain' R := by
  have flipIff : ∀ m : List Char, m.Chain' (flip R) ↔ m.Chain' R := by
    intro m
    exact List.Chain'.iff (fun a b => ⟨fun hf => hsymm b a hf, fun hr => hsymm a b hr⟩)
  unfold stripL
  have h1 : (l.dropWhile pyIsSpace).Chain' R :=
    h.suffix (List.dropWhile_suffix pyIsSpace)
  have h2 : ((l.dropWhile pyIsSpace).reverse).Chain' R :=
    List.chain'_reverse.mpr ((flipIff _).mpr h1)
  have h3 : ((l.dropWhile pyIsSpace).reverse.dropWhile pyIsSpace).Chain' R :=
    h2.suffix (List.dropWhile_suffix pyIsSpace)
  exact (flipIff _).mp (List.chain'_reverse.mpr h3)

lemma dropWhile_head_not {α : Type} (p : α → Bool) (l : List α) :
    ∀ a, (l.dropWhile p).head? = some a → p a = false := by
  induction l with
  | nil => intro a h; exact Option.noConfusion h
  | cons c cs ih =>
    intro a h
    by_cases hc : p c
    · rw [List.dropWhile_cons, if_pos hc] at h
      exact ih a h
    · rw [List.dropWhile_cons, if_neg hc] at h
      injection h with h
      rw [← h]
      cases hb : p c
      · rfl
      · exact absurd hb hc

lemma dropWhile_eq_self_of_head {α : Type} (p : α → Bool) (l : List α)
    (h : ∀ a, l.head? = some a → p a = false) : l.dropWhile p = l := by
  cases l with
  | nil => rfl
  | cons c cs =>
    rw [List.dropWhile_cons, if_neg (by rw [h c rfl]; exact Bool.false_ne_true)]

lemma dropWhile_idem {α : Type} (p : α → Bool) (l : List α) :
    (l.dropWhile p).dropWhile p = l.dropWhile p :=
  dropWhile_eq_self_of_head p _ (dropWhile_head_not p l)

lemma getLast?_dropWhile {α : Type} (p : α → Bool) (w : List α)
    (h : w.dropWhile p ≠ []) : (w.dropWhile p).getLast? = w.getLast? := by
  obtain ⟨t, ht⟩ := (List.dropWhile_suffix p : List.IsSuffix (w.dropWhile p) w)
  cases hdw : w.dropWhile p with
  | nil => exact absurd hdw h
  | cons c cs =>
    have hbody : w.getLast? = (c :: cs).getLast? := by
      rw [← ht, hdw, List.getLast?_append]
      cases hg : (c :: cs).getLast? with
      | none =>
        have : (c :: cs) ≠ ([] : List α) := by simp
        have hs := List.getLast?_isSome.mpr this
        rw [hg] at hs
        exact absurd hs (by simp)
      | some x => rw [Option.or_some]
    rw [hbody]

lemma stripL_idem (z : List Char) : stripL (stripL z) = stripL z := by
  cases hb : (z.dropWhile pyIsSpace).reverse.dropWhile pyIsSpace with
  | nil =>
    have hz : stripL z = [] := by
      unfold stripL
      rw [hb]
      rfl
    rw [hz]
    rfl
  | cons hd tl =>
    have hbne : (z.dropWhile pyIsSpace).reverse.dropWhile pyIsSpace ≠ [] := by
      rw [hb]
      simp
    have hstrip : stripL z =
        ((z.dropWhile pyIsSpace).reverse.dropWhile pyIsSpace).reverse := rfl
    have hA : (stripL z).dropWhile pyIsSpace = stripL z := by
      apply dropWhile_eq_self_of_head
      intro a ha
      rw [hstrip, List.head?_reverse] at ha
      rw [getLast?_dropWhile pyIsSpace _ hbne, List.getLast?_reverse] at ha
      exact dropWhile_head_not pyIsSpace z a ha
    have hout : stripL (stripL z) =
        (((stripL z).dropWhile pyIsSpace).reverse.dropWhile pyIsSpace).reverse :=
      rfl
    rw [hout, hA, hstrip, List.reverse_reverse, dropWhile_idem]

lemma mem_prePipeline (u : List Char) :
    ∀ c ∈ spaceNorm (punctSub (lowerL (dropNonAscii u))), GoodChar c := by
  intro c hc
  obtain ⟨d, hd, hcd⟩ := List.mem_map.mp hc
  by_cases hsp : pyIsSpace d
  · rw [if_pos hsp] at hcd
    rw [← hcd]
    exact ⟨by decide, by decide, Or.inr rfl⟩
  · rw [if_neg hsp] at hcd
    subst hcd
    obtain ⟨e, he, hde⟩ := List.mem_map.mp hd
    by_cases hw : isWordChar e || pyIsSpace e
    · rw [if_pos hw] at hde
      subst hde
      obtain ⟨f, hf, hef⟩ := List.mem_map.mp he
      have hfa : f.toNat < 128 := by
        have hmem := List.mem_filter.mp hf
        exact of_decide_eq_true hmem.2
      have hword : isWordChar e = true := by
        rcases Bool.or_eq_true_iff.mp hw with hww | hws
        · exact hww
        · exact absurd hws hsp
      subst hef
      exact ⟨toLower_ascii f hfa, toLower_toLower f, Or.inl hword⟩
    · rw [if_neg hw] at hde
      subst hde
      exact absurd (by decide : pyIsSpace ' ' = true) hsp

lemma cleanL_good (nfkd : List Char → List Char) (l : List Char) :
    ∀ c ∈ cleanL nfkd l, GoodChar c := by
  intro c hc
  unfold cleanL at hc
  have hc2 : c ∈ collapseSpaces (spaceNorm (punctSub (lowerL
      (dropNonAscii (nfkd l))))) :=
    (stripL_sublist (collapseSpaces (spaceNorm (punctSub (lowerL
      (dropNonAscii (nfkd l))))))).subset hc
  have hc3 : c ∈ spaceNorm (punctSub (lowerL (dropNonAscii (nfkd l)))) :=
    (collapseSpaces_sublist (spaceNorm (punctSub (lowerL
      (dropNonAscii (nfkd l)))))).subset hc2
  exact mem_prePipeline (nfkd l) c hc3

lemma cleanL_chain (nfkd : List Char → List Char) (l : List Char) :
    (cleanL nfkd l).Chain' (fun a b : Char => ¬(a = ' ' ∧ b = ' ')) := by
  unfold cleanL
  exact stripL_chain _ (fun a b hab hc => hab ⟨hc.2, hc.1⟩) _
    (collapseSpaces_chain _)

lemma cleanL_idem (nfkd : List Char → List Char)
    (hnfkd : ∀ m : List Char, (∀ c ∈ m, c.toNat < 128) → nfkd m = m)
    (l : List Char) : cleanL nfkd (cleanL nfkd l) = cleanL nfkd l := by
  have hgood := cleanL_good nfkd l
  have hchain := cleanL_chain nfkd l
  show stripL (collapseSpaces (spaceNorm (punctSub (lowerL
    (dropNonAscii (nfkd (cleanL nfkd l))))))) = cleanL nfkd l
  rw [hnfkd _ (fun c hc => (hgood c hc).1)]
  rw [show dropNonAscii (cleanL nfkd l) = cleanL nfkd l from
    List.filter_eq_self.mpr (fun c hc => decide_eq_true (hgood c hc).1)]
  rw [show lowerL (cleanL nfkd l) = cleanL nfkd l from
    map_eq_self_of _ _ (fun c hc => (hgood c hc).2.1)]
  rw [show punctSub (cleanL nfkd l) = cleanL nfkd l from
    map_eq_self_of _ _ (fun c hc => by
      rcases (hgood c hc).2.2 with hw | hsp
      · rw [if_pos (by rw [hw]; rfl)]
      · rw [hsp]
        rfl)]
  rw [show spaceNorm (cleanL nfkd l) = cleanL nfkd l from
    map_eq_self_of _ _ (fun c hc => by
      rcases (hgood c hc).2.2 with hw | hsp
      · rw [if_neg (by rw [isWordChar_not_space c hw]; exact Bool.false_ne_true)]
      · rw [hsp]
        rfl)]
  rw [collapseSpaces_eq_self_of_chain _ hchain]
  rw [show cleanL nfkd l = stripL (collapseSpaces (spaceNorm (punctSub
    (lowerL (dropNonAscii (nfkd l)))))) from rfl]
  exact stripL_idem _

/-- Claim C8: the text normalizer is idempotent — cleaning an
already-cleaned string returns it unchanged — and total, mapping empty or
None input to the empty string. The external Unicode NFKD normalizer is
abstracted as any function that is the identity on ASCII-only text (a
property of real NFKD). -/
theorem clean_idempotent_total (nfkd : List Char → List Char)
    (hnfkd : ∀ m : List Char, (∀ c ∈ m, c.toNat < 128) → nfkd m = m) :
    (∀ s : String, clean nfkd (clean nfkd s) = clean nfkd s) ∧
    clean nfkd "" = "" ∧
    cleanOpt nfkd none = "" := by
  refine ⟨?_, rfl, rfl⟩
  intro s
  by_cases hs : s = ""
  · rw [hs]
    rfl
  · have h1 : clean nfkd s = String.mk (cleanL nfkd s.data) := by
      unfold clean
      rw [if_neg hs]
    rw [h1]
    by_cases hy : cleanL nfkd s.data = []
    · rw [hy]
      rfl
    · have h2 : clean nfkd (String.mk (cleanL nfkd s.data)) =
          String.mk (cleanL nfkd (cleanL nfkd s.data)) := by
        unfold clean
        rw [if_neg (by
          intro hcon
          exact hy (congrArg String.data hcon))]


      rw [h2, cleanL_idem nfkd hnfkd s.data]

/-- Witness for C8: with the identity NFKD (valid: it is the identity on
ASCII), cleaning a messy string twice equals cleaning it once. -/
theorem clean_idempotent_total_witness :
    clean id (clean id "  Hello,  WORLD!! ") = clean id "  Hello,  WORLD!! " :=
  (clean_idempotent_total id (fun _ _ => rfl)).1 "  Hello,  WORLD!! "

end RAG
